import Mathlib

/-!
# Verification of the lasgrav raster-to-toolpath compiler

Shallow embedding of `src/main.rs` (the single source file of the
`lasgrav` repository) and proofs about it.

Modelling conventions:
* machine integers (`u8`, `u32`, `u64`, `usize`) are modelled as `ℕ`;
* `f64` arithmetic is idealised as exact arithmetic on `ℚ`, except where a
  claim is specifically about binary64 behaviour (the precision
  auto-derivation), where a binary64 rounding model over `ℚ` is used;
* Rust's default `Display` for `f64` (shortest round-tripping decimal,
  no trailing zeros, no exponent for these magnitudes) is modelled by
  exact decimal rendering with trailing zeros trimmed;
* the image file and the resampling filter are external collaborators
  (the `image` crate), so they enter as parameters;
* output printed to stdout is modelled as the list of CRLF-terminated
  lines, each without its terminator.
-/

/-- Horizontal motion strategy (`enum HMotion`). -/
inductive HMotion where
  | uni : HMotion
  | bi : HMotion
deriving DecidableEq, Repr

/-- The configuration bundle (`struct Lasgrav`), minus the input path and
the debugging options, which do not affect the emitted stream.  The
interpolation choice only selects the external resampling filter, which
is a parameter of the pipeline, so it is omitted as well. -/
structure Args where
  dpi : ℚ
  threshold : ℕ
  lines_per_mm : ℕ
  feed : ℕ
  power : ℕ
  motion : HMotion
  precision : Option ℕ
  quantize_horizontal : Bool
  steps_per_mm : ℕ

/-- An 8-bit luma image (`image::GrayImage`): dimensions plus a sample
function `x y ↦ luminance`. -/
structure Image where
  width : ℕ
  height : ℕ
  sample : ℕ → ℕ → ℕ

/-- The span-extraction loop of `main` (src/main.rs lines 139-156): scan
columns `x, x+1, …` while `n` columns remain, carrying `on = some start`
when inside a run of columns whose sample is strictly below the
threshold `t`.  A run is closed as `(start, x)` at the first off column
`x`, or as `(start, x)` when the row ends at width `x` while still on. -/
def spanLoopF (t : ℕ) (f : ℕ → ℕ) : ℕ → ℕ → Option ℕ → List (ℕ × ℕ)
  | 0, _, none => []
  | 0, x, some s => [(s, x)]
  | n + 1, x, none =>
    if f x < t then spanLoopF t f n (x + 1) (some x)
    else spanLoopF t f n (x + 1) none
  | n + 1, x, some s =>
    if f x < t then spanLoopF t f n (x + 1) (some s)
    else (s, x) :: spanLoopF t f n (x + 1) none

/-- Spans of one row of width `w` with sample function `f`
(src/main.rs lines 138-156). -/
def spansOf (t : ℕ) (f : ℕ → ℕ) (w : ℕ) : List (ℕ × ℕ) :=
  spanLoopF t f w 0 none

/-- The pair `(s, e)` is a maximal run of "on" columns (sample strictly below the
threshold) in a row of width `w`: nonempty, within bounds, every column
in `[s, e)` on, the column left of `s` (if any) off, and the column at
`e` off unless the run ends at the right edge `w`. -/
def isMaxRun (t : ℕ) (f : ℕ → ℕ) (w s e : ℕ) : Prop :=
  s < e ∧ e ≤ w ∧ (∀ i, i < e → s ≤ i → f i < t) ∧
    (s = 0 ∨ t ≤ f (s - 1)) ∧ (e = w ∨ t ≤ f e)

instance (t : ℕ) (f : ℕ → ℕ) (w s e : ℕ) : Decidable (isMaxRun t f w s e) := by
  unfold isMaxRun; infer_instance

/-- Loop invariant of `spanLoopF` relating the carried state to the
columns already scanned. -/
def stateInv (t : ℕ) (f : ℕ → ℕ) : Option ℕ → ℕ → Prop
  | none, x => x = 0 ∨ t ≤ f (x - 1)
  | some s0, x => s0 < x ∧ (∀ i, i < x → s0 ≤ i → f i < t) ∧ (s0 = 0 ∨ t ≤ f (s0 - 1))

/-- The set of spans the loop will still produce from a given state. -/
def stateRuns (t : ℕ) (f : ℕ → ℕ) (w : ℕ) : Option ℕ → ℕ → ℕ → ℕ → Prop
  | none, x, s, e => x ≤ s ∧ isMaxRun t f w s e
  | some s0, x, s, e =>
    (s = s0 ∧ x ≤ e ∧ isMaxRun t f w s0 e) ∨ (x < s ∧ isMaxRun t f w s e)

/-- Rows with spans, before the final `reverse` flip this list is built
top-to-bottom over image rows `y = 0 … lineCount-1`, pairing each with
machine row index `lineCount - 1 - y` (src/main.rs lines 136-162). -/
def buildRows (t : ℕ) (img : Image) (lineCount : ℕ) : List (ℕ × List (ℕ × ℕ)) :=
  ((List.range lineCount).map
    (fun y => (lineCount - 1 - y, spansOf t (fun x => img.sample x y) img.width))).reverse

/-- Rust `f64::round`: round to nearest, ties away from zero; in this program
every rounded value is nonnegative. -/
def rustRound (q : ℚ) : ℤ :=
  if 0 ≤ q then ⌊q + 1 / 2⌋ else -⌊-q + 1 / 2⌋

/-- Little-endian base-10 digits, by structural recursion on a fuel
bound (`fuel ≥ n` suffices). -/
def digitsAuxF : ℕ → ℕ → List ℕ
  | 0, _ => []
  | _ + 1, 0 => []
  | fuel + 1, n + 1 => ((n + 1) % 10) :: digitsAuxF fuel ((n + 1) / 10)

/-- Little-endian base-10 digits of `n` (empty for 0). -/
def digitsLE (n : ℕ) : List ℕ := digitsAuxF n n

/-- Decimal digit characters of `n`, most significant first;
`['0']` for zero. -/
def digitsChars (n : ℕ) : List Char :=
  if n = 0 then ['0'] else (digitsLE n).reverse.map Nat.digitChar

/-- Decimal rendering of a natural number, as Rust's `Display` for
unsigned integers. -/
def natStr (n : ℕ) : String :=
  String.mk (digitsChars n)

/-- Strip trailing decimal zeros from the scaled representation
`(n, d)` of the value `n / 10^d`. -/
def trimZeros : ℕ → ℕ → ℕ × ℕ
  | n, 0 => (n, 0)
  | n, d + 1 => if n % 10 = 0 then trimZeros (n / 10) d else (n, d + 1)

/-- The number `n` rendered as exactly `d` decimal digits (leading zeros added). -/
def padDigits (d n : ℕ) : String :=
  String.mk (List.replicate (d - (digitsChars n).length) '0' ++ digitsChars n)

/-- Rust `Display` of the `f64` value `k / 10^dp` (the result of the
source's `round` closure, src/main.rs line 175): the exact decimal with
trailing fractional zeros trimmed, and no decimal point when the value
is integral.  This is the shortest round-tripping decimal of the
corresponding binary64 value at the magnitudes this program emits. -/
def fmtScaled (k : ℤ) (dp : ℕ) : String :=
  let p := trimZeros k.toNat dp
  if p.2 = 0 then natStr p.1
  else natStr (p.1 / 10 ^ p.2) ++ "." ++ padDigits p.2 (p.1 % 10 ^ p.2)

/-- Number of digits after the decimal point in a rendered number
(0 when there is no decimal point). -/
def decCount (s : String) : ℕ :=
  if '.' ∈ s.data then (s.data.reverse.takeWhile (fun c => c ≠ '.')).length else 0

/-- One line of the emitted stream, structurally.  `rapid` and
`engrave` carry coordinates as scaled integers: the physical value is
`k / 10^dp` for the resolved precision `dp`. -/
inductive GLine where
  | g90 : GLine
  | origin : ℕ → GLine
  | m3 : GLine
  | comment : ℕ → Bool → GLine
  | rapid : ℤ → ℤ → GLine
  | engrave : ℤ → ℕ → GLine
  | m5 : GLine
deriving DecidableEq, Repr

/-- Serialisation of one stream line, mirroring the `print!` format
strings of src/main.rs lines 177-221 (each printed with a trailing
CRLF, not modelled).  Note the left-to-right arrow is `"-> "` with a
trailing space in the source (line 201). -/
def render (dp : ℕ) : GLine → String
  | GLine.g90 => "G90"
  | GLine.origin f => "G0 X0 Y0 F" ++ natStr f
  | GLine.m3 => "M3 S0"
  | GLine.comment y rtl => "( row " ++ natStr y ++ ": " ++ (if rtl then "<-" else "-> ") ++ " )"
  | GLine.rapid kx ky => "G0 X" ++ fmtScaled kx dp ++ " Y" ++ fmtScaled ky dp ++ " S0"
  | GLine.engrave kx p => "G1 X" ++ fmtScaled kx dp ++ " S" ++ natStr p
  | GLine.m5 => "M5"

/-- The scaled-integer coordinate values appearing in one stream line
(the origin move carries the literal coordinates `X0 Y0`). -/
def coordsOf : GLine → List ℤ
  | GLine.origin _ => [0, 0]
  | GLine.rapid kx ky => [kx, ky]
  | GLine.engrave kx _ => [kx]
  | _ => []

/-- The per-row loop of src/main.rs lines 190-220, reduced to the data
deciding each emitted row: rows with no spans are skipped (without
touching the `odd` toggle); an emitted row records its machine row
index, its direction flag `rtl = (motion == Bi) && odd`, and its spans
in traversal order (reversed when right-to-left); the toggle flips only
on emission. -/
def rowRecs (m : HMotion) : List (ℕ × List (ℕ × ℕ)) → Bool → List (ℕ × Bool × List (ℕ × ℕ))
  | [], _ => []
  | (y, spans) :: rest, odd =>
    if spans.isEmpty then rowRecs m rest odd
    else
      let rtl := (m == HMotion.bi) && odd
      (y, rtl, if rtl then spans.reverse else spans) :: rowRecs m rest (!odd)

/-- 25.4 mm per inch. -/
def mmPerIn : ℚ := 254 / 10

/-- The stream lines produced for one emitted row record
(src/main.rs lines 201-214): the row comment, then per span a rapid
move (laser off) and an engraving move, with every coordinate rounded
via the scaled-integer `round` closure. -/
def recItems (a : Args) (dp : ℕ) (y : ℕ) (rtl : Bool) (spans : List (ℕ × ℕ)) : List GLine :=
  let mmPerLine : ℚ := 1 / (a.lines_per_mm : ℚ)
  let halfLine : ℚ := mmPerLine / 2
  let mmpp : ℚ := if a.quantize_horizontal then mmPerLine else 1 / (a.dpi / mmPerIn)
  let sdp : ℚ := 10 ^ dp
  let ky : ℤ := rustRound (((y : ℚ) * mmPerLine + halfLine) * sdp)
  GLine.comment y rtl ::
    spans.flatMap (fun se =>
      let ksx := rustRound (((se.1 : ℚ) * mmpp) * sdp)
      let kex := rustRound (((se.2 : ℚ) * mmpp) * sdp)
      if rtl then [GLine.rapid kex ky, GLine.engrave ksx a.power]
      else [GLine.rapid ksx ky, GLine.engrave kex a.power])

/-- The full structural stream (src/main.rs lines 177-221): preamble
`G90`, origin rapid, `M3 S0`; the emitted rows; trailing `M5`. -/
def gcodeItems (a : Args) (dp : ℕ) (rows : List (ℕ × List (ℕ × ℕ))) : List GLine :=
  GLine.g90 :: GLine.origin a.feed :: GLine.m3 ::
    ((rowRecs a.motion rows false).flatMap (fun r => recItems a dp r.1 r.2.1 r.2.2)
      ++ [GLine.m5])

/-- The emitted stream as text lines. -/
def gcodeLines (a : Args) (dp : ℕ) (rows : List (ℕ × List (ℕ × ℕ))) : List String :=
  (gcodeItems a dp rows).map (render dp)

/-- Modelled from the spec (§4.3 item 3, §4.4): assign alternating
direction flags to a list of already-filtered non-empty rows — the
direction flips on every row of the list. -/
def altFlags (m : HMotion) : Bool → List (ℕ × List (ℕ × ℕ)) → List (ℕ × Bool × List (ℕ × ℕ))
  | _, [] => []
  | odd, (y, spans) :: rest =>
    let rtl := (m == HMotion.bi) && odd
    (y, rtl, if rtl then spans.reverse else spans) :: altFlags m (!odd) rest

/-- Modelled from the spec: the emitted row plans are the non-empty
rows, in order, with alternating direction flags starting
left-to-right. -/
def specRecs (m : HMotion) (rows : List (ℕ × List (ℕ × ℕ))) :
    List (ℕ × Bool × List (ℕ × ℕ)) :=
  altFlags m false (rows.filter (fun r => !r.2.isEmpty))

/-- Modelled from the spec (§6, amended): the text lines of one emitted
row — a comment naming index and direction, then per span in traversal
order a `G0 X… Y… S0` rapid (every rapid carries the row's Y) followed
by `G1 X… S<power>`. -/
def specRowLines (a : Args) (dp : ℕ) (y : ℕ) (rtl : Bool) (spans : List (ℕ × ℕ)) :
    List String :=
  let mmPerLine : ℚ := 1 / (a.lines_per_mm : ℚ)
  let mmpp : ℚ := if a.quantize_horizontal then mmPerLine else 1 / (a.dpi / mmPerIn)
  let yTok := fmtScaled (rustRound (((y : ℚ) * mmPerLine + mmPerLine / 2) * 10 ^ dp)) dp
  ("( row " ++ natStr y ++ ": " ++ (if rtl then "<-" else "-> ") ++ " )") ::
    spans.flatMap (fun se =>
      let x0 := if rtl then se.2 else se.1
      let x1 := if rtl then se.1 else se.2
      ["G0 X" ++ fmtScaled (rustRound (((x0 : ℚ) * mmpp) * 10 ^ dp)) dp ++ " Y" ++ yTok ++ " S0",
       "G1 X" ++ fmtScaled (rustRound (((x1 : ℚ) * mmpp) * 10 ^ dp)) dp ++ " S" ++ natStr a.power])

/-- Modelled from the spec (§6, amended): the whole stream — fixed
preamble, the non-empty rows' blocks with alternating directions, and a
trailing `M5`. -/
def specStream (a : Args) (dp : ℕ) (rows : List (ℕ × List (ℕ × ℕ))) : List String :=
  ["G90", "G0 X0 Y0 F" ++ natStr a.feed, "M3 S0"]
    ++ (specRecs a.motion rows).flatMap (fun r => specRowLines a dp r.1 r.2.1 r.2.2)
    ++ ["M5"]

/-- The four configuration checks of src/main.rs lines 72-86, in source
order, yielding the first failing message. -/
def configCheck (a : Args) : Option String :=
  if a.dpi ≤ 0 then some "DPI must be positive"
  else if a.steps_per_mm = 0 then some "steps/mm must not be zero"
  else if a.lines_per_mm = 0 then some "lines/mm must not be zero"
  else if ¬a.steps_per_mm % a.lines_per_mm = 0 then
    some "cannot evenly divide steps/mm into lines"
  else none

/-- Machine steps along one axis (src/main.rs lines 101-106):
`ceil(px / dpmm * steps_per_mm)` with `dpmm = dpi / 25.4`. -/
def stepsOfQ (a : Args) (px : ℕ) : ℕ :=
  ⌈((px : ℚ) / (a.dpi / mmPerIn)) * (a.steps_per_mm : ℚ)⌉.toNat

/-- The quantity `steps_per_line = steps_per_mm / lines_per_mm` (src/main.rs line 88). -/
def stepsPerLine (a : Args) : ℕ := a.steps_per_mm / a.lines_per_mm

/-- Output line count (src/main.rs line 109), deliberate round down. -/
def lineCountOf (a : Args) (imgH : ℕ) : ℕ := stepsOfQ a imgH / stepsPerLine a

/-- Output pixel width (src/main.rs lines 113-117). -/
def widthOf (a : Args) (imgW : ℕ) : ℕ :=
  if a.quantize_horizontal then stepsOfQ a imgW / stepsPerLine a else imgW

/-- Round-to-nearest, ties to even — binary64's default rounding. -/
def roundHalfEvenZ (q : ℚ) : ℤ :=
  let n := ⌊q⌋
  if q - n < 1 / 2 then n
  else if 1 / 2 < q - n then n + 1
  else if n % 2 = 0 then n else n + 1

/-- The binary64 value nearest a positive rational: 53 significant
bits, round half to even.  (All inputs in this development are normal
positive values, so subnormals/overflow need no modelling.) -/
def toF64 (q : ℚ) : ℚ :=
  if q ≤ 0 then 0
  else
    let e : ℤ := Int.log 2 q - 52
    (roundHalfEvenZ (q / (2 : ℚ) ^ e) : ℚ) * (2 : ℚ) ^ e

/-- The value `v` rounded to `n` significant decimal digits (the digit block). -/
def sigDigits (v : ℚ) (n : ℕ) : ℤ :=
  roundHalfEvenZ (v / (10 : ℚ) ^ (Int.log 10 v - (n : ℤ) + 1))

/-- Does the `n`-significant-digit decimal approximation of `v` parse
back (through binary64 rounding) to exactly `v`? -/
def roundTrips (v : ℚ) (n : ℕ) : Bool :=
  decide (toF64 ((sigDigits v n : ℚ) * (10 : ℚ) ^ (Int.log 10 v - (n : ℤ) + 1)) = v)

/-- Smallest significant-digit count (searched upward from `n`) whose
decimal approximation round-trips; 17 digits always suffice. -/
def searchSig (v : ℚ) : ℕ → ℕ → ℕ
  | 0, n => n
  | fuel + 1, n => if roundTrips v n then n else searchSig v fuel (n + 1)

/-- Number of significant digits Rust's shortest-round-trip `Display`
prints for the binary64 value `v`. -/
def shortestSig (v : ℚ) : ℕ := searchSig v 16 1

/-- Rust's default `Display` for a binary64 value `v` (given as the
exact rational it denotes): the shortest decimal string that
round-trips, rendered without an exponent.  Only nonnegative values
occur in this program. -/
def rustFmtF64 (v : ℚ) : String :=
  if v ≤ 0 then "0"
  else
    let k : ℤ := Int.log 10 v
    let n : ℕ := shortestSig v
    let d : ℕ := (sigDigits v n).toNat
    if k < 0 then "0." ++ String.mk (List.replicate (-k - 1).toNat '0') ++ natStr d
    else if (n : ℤ) ≤ k + 1 then natStr d ++ String.mk (List.replicate (k + 1 - n).toNat '0')
    else String.mk ((digitsChars d).take (k + 1).toNat) ++ "." ++
      String.mk ((digitsChars d).drop (k + 1).toNat)

/-- The length `format!("{}", 1. / steps_per_mm as f64).len()` (src/main.rs
line 170): the display length of the binary64 reciprocal of the step
density. -/
def autoPrecisionLen (s : ℕ) : ℕ :=
  (rustFmtF64 (toF64 (1 / (s : ℚ)))).length

/-- The auto-derived precision `len - 2` (src/main.rs line 170).  The
subtraction is a Rust `usize` subtraction, which panics on underflow in
debug builds; `none` models the panic. -/
def autoPrecision (s : ℕ) : Option ℕ :=
  if 2 ≤ autoPrecisionLen s then some (autoPrecisionLen s - 2) else none

/-- Resolved decimal precision (src/main.rs lines 166-173): the
explicit override if set, otherwise the auto-derivation. -/
def resolveDp (a : Args) : Option ℕ :=
  match a.precision with
  | some p => some p
  | none => autoPrecision a.steps_per_mm

/-- The whole program (`main`), with the external collaborators as
parameters: `resize` is the `image::imageops::resize` call (its filter
choice is internal to it), and `input` is the result of loading and
decoding the image file (`none` = the file could not be read).  The
configuration checks run before the image is consulted, so a
configuration error is returned for every `input` alike; `Except.ok`
carries the stdout lines.  Stderr diagnostics are not modelled. -/
def runMain (resize : Image → ℕ → ℕ → Image) (a : Args) (input : Option Image) :
    Except String (List String) :=
  match configCheck a with
  | some e => Except.error e
  | none =>
    match input with
    | none => Except.error "loading or decoding image file"
    | some img =>
      let lineCount := lineCountOf a img.height
      let width := widthOf a img.width
      let resized := resize img width lineCount
      let rows := buildRows a.threshold resized lineCount
      match resolveDp a with
      | none => Except.error "attempt to subtract with overflow"
      | some dp => Except.ok (gcodeLines a dp rows)

/-- A concrete configuration: 25.4 dpi (one pixel per mm),
unidirectional, precision forced to 4. -/
def aUniQ4 : Args :=
  { dpi := 127 / 5, threshold := 128, lines_per_mm := 8, feed := 1000, power := 1000,
    motion := HMotion.uni, precision := some 4, quantize_horizontal := false,
    steps_per_mm := 160 }

/-- A concrete configuration with an explicit precision override of 2. -/
def aPrec2 : Args :=
  { dpi := 127 / 5, threshold := 128, lines_per_mm := 8, feed := 1000, power := 1000,
    motion := HMotion.uni, precision := some 2, quantize_horizontal := false,
    steps_per_mm := 160 }

/-- The default configuration (dpi 300, 8 lines/mm, 160 steps/mm,
bidirectional, auto precision). -/
def aDefault : Args :=
  { dpi := 300, threshold := 128, lines_per_mm := 8, feed := 1000, power := 1000,
    motion := HMotion.bi, precision := none, quantize_horizontal := false,
    steps_per_mm := 160 }

/-- A configuration with `steps_per_mm = 1` (and `lines_per_mm = 1` so
the divisibility check passes). -/
def aStep1 : Args :=
  { dpi := 300, threshold := 128, lines_per_mm := 1, feed := 1000, power := 1000,
    motion := HMotion.bi, precision := none, quantize_horizontal := false,
    steps_per_mm := 1 }

/-- A configuration rejected by the checks (`steps_per_mm = 0`). -/
def aZeroSteps : Args :=
  { dpi := 300, threshold := 128, lines_per_mm := 8, feed := 1000, power := 1000,
    motion := HMotion.bi, precision := none, quantize_horizontal := false,
    steps_per_mm := 0 }

/-- A tiny all-black test image. -/
def imgBlack : Image := { width := 2, height := 2, sample := fun _ _ => 0 }

theorem spanLoopF_mem (t : ℕ) (f : ℕ → ℕ) :
    ∀ (n x : ℕ) (st : Option ℕ) (s e : ℕ), stateInv t f st x →
      ((s, e) ∈ spanLoopF t f n x st ↔ stateRuns t f (x + n) st x s e) := by
  intro n
  induction n with
  | zero =>
    intro x st s e hinv
    cases st with
    | none =>
      simp only [spanLoopF, List.not_mem_nil, stateRuns, Nat.add_zero, false_iff]
      rintro ⟨hxs, hse, hew, -⟩
      omega
    | some s0 =>
      obtain ⟨hs0x, hon, hleft⟩ := hinv
      simp only [spanLoopF, List.mem_singleton, Prod.mk.injEq, stateRuns, Nat.add_zero]
      constructor
      · rintro ⟨rfl, rfl⟩
        exact Or.inl ⟨rfl, le_refl _, hs0x, le_refl _, hon, hleft, Or.inl rfl⟩
      · rintro (⟨rfl, hxe, hmr⟩ | ⟨hxs, hmr⟩)
        · obtain ⟨h1, h2, -⟩ := hmr
          exact ⟨rfl, by omega⟩
        · obtain ⟨h1, h2, -⟩ := hmr
          exact absurd h2 (by omega)
  | succ n ih =>
    intro x st s e hinv
    have hw : x + 1 + n = x + (n + 1) := by omega
    cases st with
    | none =>
      by_cases hp : f x < t
      · simp only [spanLoopF, hp, if_true]
        have hinv' : stateInv t f (some x) (x + 1) := by
          refine ⟨Nat.lt_succ_self x, ?_, hinv⟩
          intro i hi hxi
          have : i = x := by omega
          subst this; exact hp
        rw [ih (x + 1) (some x) s e hinv', hw]
        simp only [stateRuns]
        constructor
        · rintro (⟨rfl, hxe, hmr⟩ | ⟨hxs, hmr⟩)
          · exact ⟨le_refl _, hmr⟩
          · exact ⟨by omega, hmr⟩
        · rintro ⟨hxs, hmr⟩
          rcases Nat.eq_or_lt_of_le hxs with heq | hlt
          · subst heq
            exact Or.inl ⟨rfl, hmr.1, hmr⟩
          · refine Or.inr ⟨?_, hmr⟩
            obtain ⟨h1, h2, h3, h4, h5⟩ := hmr
            rcases h4 with h4 | h4
            · omega
            · by_cases hsx : s = x + 1
              · exfalso
                rw [hsx, Nat.add_sub_cancel] at h4
                omega
              · omega
      · simp only [spanLoopF, hp, if_false]
        have hinv' : stateInv t f none (x + 1) := Or.inr (by simpa using Nat.le_of_not_lt hp)
        rw [ih (x + 1) none s e hinv', hw]
        simp only [stateRuns]
        constructor
        · rintro ⟨hxs, hmr⟩
          exact ⟨by omega, hmr⟩
        · rintro ⟨hxs, hmr⟩
          refine ⟨?_, hmr⟩
          obtain ⟨h1, h2, h3, h4, h5⟩ := hmr
          rcases Nat.eq_or_lt_of_le hxs with heq | hlt
          · exact absurd (h3 x (by omega) (by omega)) hp
          · omega
    | some s0 =>
      obtain ⟨hs0x, hon, hleft⟩ := hinv
      by_cases hp : f x < t
      · simp only [spanLoopF, hp, if_true]
        have hinv' : stateInv t f (some s0) (x + 1) := by
          refine ⟨by omega, ?_, hleft⟩
          intro i hi hs0i
          rcases Nat.lt_or_ge i x with h | h
          · exact hon i h hs0i
          · have : i = x := by omega
            subst this; exact hp
        rw [ih (x + 1) (some s0) s e hinv', hw]
        simp only [stateRuns]
        constructor
        · rintro (⟨rfl, hxe, hmr⟩ | ⟨hxs, hmr⟩)
          · exact Or.inl ⟨rfl, by omega, hmr⟩
          · exact Or.inr ⟨by omega, hmr⟩
        · rintro (⟨rfl, hxe, hmr⟩ | ⟨hxs, hmr⟩)
          · refine Or.inl ⟨rfl, ?_, hmr⟩
            obtain ⟨h1, h2, h3, h4, h5⟩ := hmr
            rcases Nat.eq_or_lt_of_le hxe with heq | hlt
            · exfalso
              rcases h5 with h5 | h5
              · omega
              · rw [← heq] at h5
                omega
            · omega
          · refine Or.inr ⟨?_, hmr⟩
            obtain ⟨h1, h2, h3, h4, h5⟩ := hmr
            rcases h4 with h4 | h4
            · omega
            · by_cases hsx : s = x + 1
              · exfalso
                rw [hsx, Nat.add_sub_cancel] at h4
                omega
              · omega
      · simp only [spanLoopF, hp, if_false, List.mem_cons, Prod.mk.injEq]
        have hinv' : stateInv t f none (x + 1) := Or.inr (by simpa using Nat.le_of_not_lt hp)
        rw [ih (x + 1) none s e hinv', hw]
        simp only [stateRuns]
        have hclosed : isMaxRun t f (x + (n + 1)) s0 x :=
          ⟨hs0x, by omega, hon, hleft, Or.inr (by omega)⟩
        constructor
        · rintro (⟨rfl, rfl⟩ | ⟨hxs, hmr⟩)
          · exact Or.inl ⟨rfl, le_refl _, hclosed⟩
          · exact Or.inr ⟨by omega, hmr⟩
        · rintro (⟨rfl, hxe, hmr⟩ | ⟨hxs, hmr⟩)
          · refine Or.inl ⟨rfl, ?_⟩
            obtain ⟨h1, h2, h3, h4, h5⟩ := hmr
            by_contra hne
            have hlt : x < e := by omega
            exact hp (h3 x hlt (by omega))
          · exact Or.inr ⟨by omega, hmr⟩

/-- The spans of a row are exactly its maximal on-runs. -/
theorem spansOf_mem_iff (t : ℕ) (f : ℕ → ℕ) (w s e : ℕ) :
    (s, e) ∈ spansOf t f w ↔ isMaxRun t f w s e := by
  have h := spanLoopF_mem t f w 0 none s e (Or.inl rfl)
  simpa [spansOf, stateRuns] using h

theorem spanLoopF_start_ge (t : ℕ) (f : ℕ → ℕ) :
    ∀ (n x : ℕ) (st : Option ℕ) (p : ℕ × ℕ), p ∈ spanLoopF t f n x st →
      (match st with | none => x ≤ p.1 | some s0 => s0 ≤ p.1 ∨ x ≤ p.1) := by
  intro n
  induction n with
  | zero =>
    intro x st p hp
    cases st with
    | none => simp [spanLoopF] at hp
    | some s0 =>
      simp only [spanLoopF, List.mem_singleton] at hp
      subst hp; exact Or.inl (le_refl _)
  | succ n ih =>
    intro x st p hp
    cases st with
    | none =>
      by_cases h : f x < t
      · simp only [spanLoopF, h, if_true] at hp
        have := ih (x + 1) (some x) p hp
        simp only at this
        omega
      · simp only [spanLoopF, h, if_false] at hp
        have := ih (x + 1) none p hp
        simp only at this
        omega
    | some s0 =>
      by_cases h : f x < t
      · simp only [spanLoopF, h, if_true] at hp
        have := ih (x + 1) (some s0) p hp
        simp only at this
        omega
      · simp only [spanLoopF, h, if_false, List.mem_cons] at hp
        rcases hp with rfl | hp
        · exact Or.inl (le_refl _)
        · have := ih (x + 1) none p hp
          simp only at this
          omega

theorem spanLoopF_pairwise (t : ℕ) (f : ℕ → ℕ) :
    ∀ (n x : ℕ) (st : Option ℕ),
      List.Pairwise (fun p q => p.2 ≤ q.1) (spanLoopF t f n x st) := by
  intro n
  induction n with
  | zero =>
    intro x st
    cases st <;> simp [spanLoopF]
  | succ n ih =>
    intro x st
    cases st with
    | none =>
      by_cases h : f x < t <;> simp only [spanLoopF, h, if_true, if_false] <;> exact ih _ _
    | some s0 =>
      by_cases h : f x < t
      · simp only [spanLoopF, h, if_true]; exact ih _ _
      · simp only [spanLoopF, h, if_false]
        refine List.pairwise_cons.mpr ⟨?_, ih _ _⟩
        intro q hq
        have := spanLoopF_start_ge t f n (x + 1) none q hq
        simpa using le_trans (by omega) this

theorem spanLoopF_cover (t : ℕ) (f : ℕ → ℕ) :
    ∀ (n x : ℕ) (st : Option ℕ) (i : ℕ),
      (match st with | none => x ≤ i | some s0 => s0 ≤ i) →
      i < x + n → f i < t →
      ∃ p ∈ spanLoopF t f n x st, p.1 ≤ i ∧ i < p.2 := by
  intro n
  induction n with
  | zero =>
    intro x st i hlow hup hon
    cases st with
    | none => omega
    | some s0 =>
      exact ⟨(s0, x), List.mem_singleton.mpr rfl, hlow, by omega⟩
  | succ n ih =>
    intro x st i hlow hup hon
    cases st with
    | none =>
      by_cases h : f x < t
      · simp only [spanLoopF, h, if_true]
        exact ih (x + 1) (some x) i hlow (by omega) hon
      · simp only [spanLoopF, h, if_false]
        have hxi : x + 1 ≤ i := by
          rcases Nat.eq_or_lt_of_le hlow with rfl | hlt
          · exact absurd hon h
          · omega
        exact ih (x + 1) none i hxi (by omega) hon
    | some s0 =>
      by_cases h : f x < t
      · simp only [spanLoopF, h, if_true]
        exact ih (x + 1) (some s0) i hlow (by omega) hon
      · simp only [spanLoopF, h, if_false]
        rcases Nat.lt_or_ge i x with hix | hix
        · exact ⟨(s0, x), List.mem_cons_self _ _, hlow, hix⟩
        · have hxi : x + 1 ≤ i := by
            rcases Nat.eq_or_lt_of_le hix with rfl | hlt
            · exact absurd hon h
            · omega
          obtain ⟨p, hp, hcov⟩ := ih (x + 1) none i hxi (by omega) hon
          exact ⟨p, List.mem_cons_of_mem _ hp, hcov⟩

/-- C1: the Span Extractor produces exactly the maximal runs of
consecutive columns whose luminance sample is strictly below the
threshold.  `isMaxRun` packages: each span `(s, e)` satisfies `s < e`,
every column in `[s, e)` is on, the columns bounding the run are off,
and a run still open at the right edge closes at the row's pixel width
`w`.  Moreover every produced span satisfies `start < end`, spans are
non-overlapping with strictly increasing starts (each span ends no
later than the next begins), and a column is covered by some span
exactly when its sample is strictly below the threshold. -/
theorem spans_correct (t : ℕ) (f : ℕ → ℕ) (w : ℕ) :
    (∀ s e, (s, e) ∈ spansOf t f w ↔ isMaxRun t f w s e)
    ∧ (∀ p ∈ spansOf t f w, p.1 < p.2)
    ∧ List.Pairwise (fun p q => p.2 ≤ q.1) (spansOf t f w)
    ∧ (∀ i, i < w → (f i < t ↔ ∃ p ∈ spansOf t f w, p.1 ≤ i ∧ i < p.2)) := by
  refine ⟨spansOf_mem_iff t f w, ?_, spanLoopF_pairwise t f w 0 none, ?_⟩
  · intro p hp
    have := (spansOf_mem_iff t f w p.1 p.2).mp hp
    exact this.1
  · intro i hi
    constructor
    · intro hon
      exact spanLoopF_cover t f w 0 none i (Nat.zero_le i) (by omega) hon
    · rintro ⟨p, hp, hpi, hip⟩
      have hmr := (spansOf_mem_iff t f w p.1 p.2).mp hp
      exact hmr.2.2.1 i hip hpi

/-- Closed instance of `spans_correct` exercising every part on a
concrete row. -/
theorem spans_correct_witness :
    ((0, 2) ∈ spansOf 2 (fun i => i) 3 ↔ isMaxRun 2 (fun i => i) 3 0 2)
    ∧ ((1 : ℕ) < 3 → ((fun i => i) 1 < 2 ↔
        ∃ p ∈ spansOf 2 (fun i => i) 3, p.1 ≤ 1 ∧ 1 < p.2)) := by
  have h := spans_correct 2 (fun i => i) 3
  exact ⟨h.1 0 2, h.2.2.2 1⟩

theorem rowRecs_head_rtl (rows : List (ℕ × List (ℕ × ℕ))) :
    ∀ (odd : Bool) (r : ℕ × Bool × List (ℕ × ℕ)),
      (rowRecs HMotion.bi rows odd).head? = some r → r.2.1 = odd := by
  induction rows with
  | nil => intro odd r h; simp [rowRecs] at h
  | cons hd tl ih =>
    obtain ⟨y, spans⟩ := hd
    intro odd r h
    by_cases he : spans.isEmpty
    · rw [rowRecs, if_pos he] at h
      exact ih odd r h
    · rw [rowRecs, if_neg he] at h
      simp only [Option.some.injEq, List.head?_cons] at h
      subst h
      simp

theorem rowRecs_chain_alt (rows : List (ℕ × List (ℕ × ℕ))) :
    ∀ odd : Bool,
      List.Chain' (fun a b => b.2.1 = !a.2.1) (rowRecs HMotion.bi rows odd) := by
  induction rows with
  | nil => intro odd; simp [rowRecs]
  | cons hd tl ih =>
    obtain ⟨y, spans⟩ := hd
    intro odd
    by_cases he : spans.isEmpty
    · rw [rowRecs, if_pos he]
      exact ih odd
    · rw [rowRecs, if_neg he]
      refine List.chain'_cons'.mpr ⟨?_, ih (!odd)⟩
      intro b hb
      have := rowRecs_head_rtl tl (!odd) b hb
      simp [this]

theorem rowRecs_uni_rtl (rows : List (ℕ × List (ℕ × ℕ))) :
    ∀ odd : Bool, ∀ r ∈ rowRecs HMotion.uni rows odd, r.2.1 = false := by
  induction rows with
  | nil => intro odd r h; simp [rowRecs] at h
  | cons hd tl ih =>
    obtain ⟨y, spans⟩ := hd
    intro odd r h
    by_cases he : spans.isEmpty
    · rw [rowRecs, if_pos he] at h
      exact ih odd r h
    · rw [rowRecs, if_neg he] at h
      rcases List.mem_cons.mp h with rfl | h
      · simp
      · exact ih (!odd) r h

/-- C2: direction bookkeeping of the emission loop.  In bidirectional
mode, consecutive emitted (non-empty) row records carry opposite
direction flags; a row with no spans is skipped without touching the
toggle, so any number of blank rows leaves the next emitted row's
direction unchanged; in unidirectional mode every emitted row is
left-to-right (`rtl = false`). -/
theorem serpentine (rows : List (ℕ × List (ℕ × ℕ))) (odd : Bool) :
    List.Chain' (fun a b => b.2.1 = !a.2.1) (rowRecs HMotion.bi rows odd)
    ∧ (∀ (m : HMotion) (y : ℕ), rowRecs m ((y, []) :: rows) odd = rowRecs m rows odd)
    ∧ (∀ r ∈ rowRecs HMotion.uni rows odd, r.2.1 = false) := by
  refine ⟨rowRecs_chain_alt rows odd, ?_, rowRecs_uni_rtl rows odd⟩
  intro m y
  simp [rowRecs]

/-- Closed instance of `serpentine` on a row list with a blank row in
the middle. -/
theorem serpentine_witness :
    List.Chain' (fun a b => b.2.1 = !a.2.1)
      (rowRecs HMotion.bi [(0, [(0, 1)]), (2, [(0, 1)])] false)
    ∧ rowRecs HMotion.bi ((1, []) :: [(0, [(0, 1)]), (2, [(0, 1)])]) false
        = rowRecs HMotion.bi [(0, [(0, 1)]), (2, [(0, 1)])] false
    ∧ ((0, false, [(0, 1)]) ∈ rowRecs HMotion.uni [(0, [(0, 1)]), (2, [(0, 1)])] false →
        ((0 : ℕ), false, [((0 : ℕ), (1 : ℕ))]).2.1 = false) := by
  have h := serpentine [(0, [(0, 1)]), (2, [(0, 1)])] false
  exact ⟨h.1, h.2.1 HMotion.bi 1, h.2.2 _⟩

theorem buildRows_getElem (t : ℕ) (img : Image) (n i : ℕ) (h : i < n) :
    (buildRows t img n)[i]? =
      some (i, spansOf t (fun x => img.sample x (n - 1 - i)) img.width) := by
  rw [buildRows]
  rw [List.getElem?_reverse (by simpa using h)]
  simp only [List.length_map, List.length_range, List.getElem?_map]
  rw [List.getElem?_range (by omega)]
  have hi : n - 1 - (n - 1 - i) = i := by omega
  simp [hi]

theorem buildRows_map_fst (t : ℕ) (img : Image) (n : ℕ) :
    (buildRows t img n).map Prod.fst = List.range n := by
  apply List.ext_getElem?
  intro i
  by_cases h : i < n
  · rw [List.getElem?_map, buildRows_getElem t img n i h, List.getElem?_range h]
    rfl
  · rw [List.getElem?_eq_none, List.getElem?_eq_none]
    · simpa using h
    · simp [buildRows]
      omega

theorem rowRecs_fst_sublist (m : HMotion) (rows : List (ℕ × List (ℕ × ℕ))) :
    ∀ odd : Bool,
      ((rowRecs m rows odd).map (fun r => r.1)).Sublist (rows.map Prod.fst) := by
  induction rows with
  | nil => intro odd; simp [rowRecs]
  | cons hd tl ih =>
    obtain ⟨y, spans⟩ := hd
    intro odd
    by_cases he : spans.isEmpty
    · rw [rowRecs, if_pos he]
      exact (ih odd).cons _
    · rw [rowRecs, if_neg he]
      simpa using (ih (!odd)).cons₂ y

/-- C3: the vertical flip and bottom-to-top delivery.  `buildRows`
(the row construction with `lineCount - 1 - y` plus the final
`reverse`) delivers, at list position `i`, machine row index `i`
paired with the spans of image row `n - 1 - i`: so image row 0 gets
the highest machine index `n - 1`, image row `n - 1` gets machine
index 0, and the emission loop (which walks the list in order)
visits machine row indices in ascending order — in particular the
emitted (non-empty) rows have strictly increasing Y index. -/
theorem row_flip (t : ℕ) (img : Image) (n : ℕ) (m : HMotion) (odd : Bool) :
    (buildRows t img n).map Prod.fst = List.range n
    ∧ (∀ i, i < n → (buildRows t img n)[i]? =
        some (i, spansOf t (fun x => img.sample x (n - 1 - i)) img.width))
    ∧ List.Pairwise (· < ·) ((rowRecs m (buildRows t img n) odd).map (fun r => r.1)) := by
  refine ⟨buildRows_map_fst t img n, buildRows_getElem t img n, ?_⟩
  have hsub := rowRecs_fst_sublist m (buildRows t img n) odd
  rw [buildRows_map_fst t img n] at hsub
  exact (List.pairwise_lt_range n).sublist hsub

/-- Closed instance of `row_flip`: for a 2-line black image, machine
row 0 holds image row 1 and machine row 1 holds image row 0. -/
theorem row_flip_witness :
    (buildRows 128 imgBlack 2).map Prod.fst = List.range 2
    ∧ (buildRows 128 imgBlack 2)[0]? =
        some (0, spansOf 128 (fun x => imgBlack.sample x 1) imgBlack.width)
    ∧ (buildRows 128 imgBlack 2)[1]? =
        some (1, spansOf 128 (fun x => imgBlack.sample x 0) imgBlack.width) := by
  have h := row_flip 128 imgBlack 2 HMotion.bi false
  exact ⟨h.1, h.2.1 0 (by norm_num), h.2.1 1 (by norm_num)⟩

theorem int_log_eval {b : ℕ} (hb : 1 < b) {q : ℚ} (hq : 0 < q) {z : ℤ}
    (h1 : (b : ℚ) ^ z ≤ q) (h2 : q < (b : ℚ) ^ (z + 1)) : Int.log b q = z := by
  have hle := (Int.zpow_le_iff_le_log hb hq).mp h1
  have hlt := (Int.lt_zpow_iff_log_lt hb hq).mp h2
  omega

theorem rustRound_eval (q : ℚ) (n : ℤ) (h0 : 0 ≤ q) (h1 : (n : ℚ) ≤ q + 1 / 2)
    (h2 : q + 1 / 2 < (n : ℚ) + 1) : rustRound q = n := by
  rw [rustRound, if_pos h0]
  exact Int.floor_eq_iff.mpr ⟨h1, h2⟩

theorem rhez_eval_lo (q : ℚ) (n : ℤ) (h1 : (n : ℚ) ≤ q) (h2 : q - n < 1 / 2) :
    roundHalfEvenZ q = n := by
  have hf : ⌊q⌋ = n := Int.floor_eq_iff.mpr ⟨h1, by linarith⟩
  simp only [roundHalfEvenZ, hf]
  rw [if_pos h2]

theorem rhez_eval_hi (q : ℚ) (n : ℤ) (h1 : (n : ℚ) ≤ q) (h1b : q < (n : ℚ) + 1)
    (h2 : 1 / 2 < q - n) : roundHalfEvenZ q = n + 1 := by
  have hf : ⌊q⌋ = n := Int.floor_eq_iff.mpr ⟨h1, h1b⟩
  simp only [roundHalfEvenZ, hf]
  rw [if_neg (by linarith), if_pos h2]

theorem toF64_eval (q : ℚ) (lg m : ℤ) (hq : 0 < q) (hlg : Int.log 2 q = lg)
    (hm : roundHalfEvenZ (q / (2 : ℚ) ^ (lg - 52)) = m) :
    toF64 q = (m : ℚ) * (2 : ℚ) ^ (lg - 52) := by
  simp only [toF64, hlg]
  rw [if_neg (not_le.mpr hq), hm]

theorem rowRecs_eq_altFlags (m : HMotion) (rows : List (ℕ × List (ℕ × ℕ))) :
    ∀ odd : Bool,
      rowRecs m rows odd = altFlags m odd (rows.filter (fun r => !r.2.isEmpty)) := by
  induction rows with
  | nil => intro odd; simp [rowRecs, altFlags]
  | cons hd tl ih =>
    obtain ⟨y, spans⟩ := hd
    intro odd
    by_cases he : spans.isEmpty
    · rw [rowRecs, if_pos he]
      rw [List.filter_cons]
      simp only [he, Bool.not_true]
      exact ih odd
    · rw [rowRecs, if_neg he]
      rw [List.filter_cons]
      simp only [he, Bool.not_false, if_pos]
      rw [altFlags]
      rw [ih (!odd)]

theorem recItems_render (a : Args) (dp : ℕ) (y : ℕ) (rtl : Bool) (spans : List (ℕ × ℕ)) :
    (recItems a dp y rtl spans).map (render dp) = specRowLines a dp y rtl spans := by
  simp only [recItems, specRowLines, List.map_cons, List.map_flatMap]
  refine congrArg₂ _ rfl ?_
  apply List.flatMap_congr
  intro se _
  cases rtl <;> simp [render]

/-- C5 (amended): the emitted stream is exactly — `G90`, then
`G0 X0 Y0 F<feed>`, then `M3 S0`; then for each non-empty row, with
directions alternating over the non-empty rows only (bidirectional
mode) or always left-to-right (unidirectional), a comment line
`( row <y>: <- )` or `( row <y>: ->  )` (the left-to-right arrow
carries a trailing space), followed per span in direction order by
`G0 X<x> Y<y> S0` and `G1 X<x> S<power>` — every rapid move carries the
row's Y coordinate, not just the first of a row; and a trailing `M5`.
Empty rows contribute no lines. -/
theorem stream_exact (a : Args) (dp : ℕ) (rows : List (ℕ × List (ℕ × ℕ))) :
    gcodeLines a dp rows = specStream a dp rows := by
  have hfun : (fun r : ℕ × Bool × List (ℕ × ℕ) => (recItems a dp r.1 r.2.1 r.2.2).map (render dp))
      = fun r => specRowLines a dp r.1 r.2.1 r.2.2 := by
    funext r
    exact recItems_render a dp r.1 r.2.1 r.2.2
  simp only [gcodeLines, gcodeItems, specStream, List.map_cons, List.map_append,
    List.map_flatMap, specRecs, render, hfun, List.map_nil]
  rw [rowRecs_eq_altFlags]
  simp

/-- C5 as stated is false: on a one-row, two-span image the emitted
stream is not the claimed stream — the second span's rapid move also
carries an explicit `Y` (the source prints `Y{yc}` for every span,
src/main.rs lines 208/211), and the left-to-right comment arrow is
`"-> "` with an extra trailing space (line 201). -/
theorem gcodeItems_uniQ4_eval :
    gcodeItems aUniQ4 4 [(0, [(0, 1), (2, 3)])]
      = [GLine.g90, GLine.origin 1000, GLine.m3, GLine.comment 0 false,
         GLine.rapid 0 625, GLine.engrave 10000 1000,
         GLine.rapid 20000 625, GLine.engrave 30000 1000, GLine.m5] := by
  simp only [gcodeItems, rowRecs, aUniQ4, mmPerIn, List.isEmpty_cons,
    Bool.false_and, if_false]
  simp only [recItems, List.flatMap_cons, List.flatMap_nil, List.append_nil,
    List.cons_append, List.nil_append]
  norm_num [rustRound, mmPerIn, Int.floor_eq_iff]

theorem stream_claim_cex :
    gcodeLines aUniQ4 4 [(0, [(0, 1), (2, 3)])] ≠
      ["G90", "G0 X0 Y0 F1000", "M3 S0", "( row 0: -> )",
       "G0 X0 Y0.0625 S0", "G1 X1 S1000", "G0 X2 S0", "G1 X3 S1000", "M5"] := by
  rw [gcodeLines, gcodeItems_uniQ4_eval]
  decide

theorem digitsAuxF_lt_ten :
    ∀ (fuel n : ℕ), ∀ d ∈ digitsAuxF fuel n, d < 10 := by
  intro fuel
  induction fuel with
  | zero => intro n d h; simp [digitsAuxF] at h
  | succ fuel ih =>
    intro n d h
    cases n with
    | zero => simp [digitsAuxF] at h
    | succ m =>
      rw [digitsAuxF] at h
      rcases List.mem_cons.mp h with rfl | h
      · exact Nat.mod_lt _ (by norm_num)
      · exact ih _ d h

theorem digitsAuxF_length :
    ∀ (fuel n d : ℕ), n < 10 ^ d → (digitsAuxF fuel n).length ≤ d := by
  intro fuel
  induction fuel with
  | zero => intro n d _; simp [digitsAuxF]
  | succ fuel ih =>
    intro n d hn
    cases n with
    | zero => simp [digitsAuxF]
    | succ m =>
      cases d with
      | zero => simp at hn
      | succ d =>
        rw [digitsAuxF]
        simp only [List.length_cons]
        have hdiv : (m + 1) / 10 < 10 ^ d := by
          rw [Nat.div_lt_iff_lt_mul (by norm_num)]
          calc m + 1 < 10 ^ (d + 1) := hn
            _ = 10 ^ d * 10 := by ring
        have := ih ((m + 1) / 10) d hdiv
        omega

theorem digitChar_ne_dot (d : ℕ) (h : d < 10) : Nat.digitChar d ≠ '.' := by
  interval_cases d <;> decide

theorem digitsChars_no_dot (n : ℕ) : '.' ∉ digitsChars n := by
  rw [digitsChars]
  split_ifs with h
  · decide
  · intro hm
    obtain ⟨d, hd, hEq⟩ := List.mem_map.mp hm
    rw [List.mem_reverse] at hd
    exact digitChar_ne_dot d (digitsAuxF_lt_ten n n d hd) hEq

theorem digitsChars_ne_nil (n : ℕ) : digitsChars n ≠ [] := by
  rw [digitsChars]
  split_ifs with h
  · simp
  · obtain ⟨m, rfl⟩ := Nat.exists_eq_succ_of_ne_zero h
    simp [digitsLE, digitsAuxF]

theorem digitsChars_length_le (n d : ℕ) (hd : 1 ≤ d) (h : n < 10 ^ d) :
    (digitsChars n).length ≤ d := by
  rw [digitsChars]
  split_ifs with h0
  · simpa using hd
  · simpa [digitsLE] using digitsAuxF_length n n d h

theorem takeWhile_no_dot (l r : List Char) (h : '.' ∉ l) :
    ((l ++ '.' :: r).takeWhile (fun c => c ≠ '.')) = l := by
  induction l with
  | nil => simp
  | cons c cs ih =>
    have hc : c ≠ '.' := fun hEq => h (hEq ▸ List.mem_cons_self c cs)
    have h2 : '.' ∉ cs := fun hm => h (List.mem_cons_of_mem _ hm)
    rw [List.cons_append, List.takeWhile_cons, if_pos (by simpa using hc), ih h2]

theorem decCount_split (s : String) (aL bL : List Char) (hs : s.data = aL ++ '.' :: bL)
    (hb : '.' ∉ bL) : decCount s = bL.length := by
  rw [decCount, hs, if_pos (by simp)]
  show ((aL ++ '.' :: bL).reverse.takeWhile (fun c => c ≠ '.')).length = bL.length
  have hrev : (aL ++ '.' :: bL).reverse = bL.reverse ++ '.' :: aL.reverse := by
    simp [List.reverse_append]
  rw [hrev, takeWhile_no_dot _ _ (by simpa using hb), List.length_reverse]

theorem trimZeros_le : ∀ (d n : ℕ), (trimZeros n d).2 ≤ d := by
  intro d
  induction d with
  | zero => intro n; simp [trimZeros]
  | succ d ih =>
    intro n
    rw [trimZeros]
    split_ifs with h
    · exact le_trans (ih (n / 10)) (Nat.le_succ d)
    · exact le_refl _

theorem decCount_fmtScaled (k : ℤ) (dp : ℕ) :
    decCount (fmtScaled k dp) = (trimZeros k.toNat dp).2 := by
  simp only [fmtScaled]
  split_ifs with h
  · rw [h, decCount, if_neg]
    exact digitsChars_no_dot _
  · have hlen : (digitsChars ((trimZeros k.toNat dp).1 % 10 ^ (trimZeros k.toNat dp).2)).length
        ≤ (trimZeros k.toNat dp).2 := by
      refine digitsChars_length_le _ _ (by omega) ?_
      exact Nat.mod_lt _ (by positivity)
    have hdot : ("." : String).data = ['.'] := rfl
    have hdata : (natStr ((trimZeros k.toNat dp).1 / 10 ^ (trimZeros k.toNat dp).2) ++ "." ++
          padDigits (trimZeros k.toNat dp).2 ((trimZeros k.toNat dp).1 % 10 ^ (trimZeros k.toNat dp).2)).data
        = digitsChars ((trimZeros k.toNat dp).1 / 10 ^ (trimZeros k.toNat dp).2) ++ '.' ::
            (List.replicate ((trimZeros k.toNat dp).2 -
              (digitsChars ((trimZeros k.toNat dp).1 % 10 ^ (trimZeros k.toNat dp).2)).length) '0' ++
              digitsChars ((trimZeros k.toNat dp).1 % 10 ^ (trimZeros k.toNat dp).2)) := by
      simp [natStr, padDigits, String.data_append, hdot, List.append_assoc]
    rw [decCount_split _ _ _ hdata]
    · rw [List.length_append, List.length_replicate]
      omega
    · intro hm
      rcases List.mem_append.mp hm with hm | hm
      · exact absurd (List.eq_of_mem_replicate hm) (by decide)
      · exact digitsChars_no_dot _ hm

/-- C6 (amended): every scaled coordinate in the emitted stream renders
with at most the resolved precision many decimal digits — the value is
rounded to `dp` digits, but Rust's default float `Display` trims
trailing zeros, so fewer digits (or none) may be printed. -/
theorem coords_precision (a : Args) (dp : ℕ) (rows : List (ℕ × List (ℕ × ℕ))) :
    ∀ item ∈ gcodeItems a dp rows, ∀ k ∈ coordsOf item,
      decCount (fmtScaled k dp) ≤ dp := by
  intro item _ k _
  rw [decCount_fmtScaled]
  exact trimZeros_le dp k.toNat

theorem gcodeItems_prec2_eval :
    gcodeItems aPrec2 2 [(0, [(0, 1)])]
      = [GLine.g90, GLine.origin 1000, GLine.m3, GLine.comment 0 false,
         GLine.rapid 0 6, GLine.engrave 100 1000, GLine.m5] := by
  simp only [gcodeItems, rowRecs, aPrec2, List.isEmpty_cons, Bool.false_and, if_false]
  simp only [recItems, List.flatMap_cons, List.flatMap_nil, List.append_nil,
    List.cons_append, List.nil_append]
  norm_num [rustRound, mmPerIn, Int.floor_eq_iff]

/-- C6 as stated is false: with an explicit precision override of 2 the
coordinate `X0` of the first span's rapid move renders as `"0"`, with 0
decimal digits, not exactly 2 — Rust's `{}` float formatting trims
trailing zeros (src/main.rs lines 205-213 print the rounded `f64`s with
the default `Display`). -/
theorem coords_claim_cex :
    resolveDp aPrec2 = some 2
    ∧ GLine.rapid 0 6 ∈ gcodeItems aPrec2 2 [(0, [(0, 1)])]
    ∧ (0 : ℤ) ∈ coordsOf (GLine.rapid 0 6)
    ∧ decCount (fmtScaled 0 2) ≠ 2 := by
  refine ⟨rfl, ?_, by decide, by decide⟩
  rw [gcodeItems_prec2_eval]
  decide

/-- Closed instance of `coords_precision` at the counterexample's
coordinate. -/
theorem coords_precision_witness :
    GLine.rapid 0 6 ∈ gcodeItems aPrec2 2 [(0, [(0, 1)])]
    ∧ (0 : ℤ) ∈ coordsOf (GLine.rapid 0 6)
    ∧ decCount (fmtScaled 0 2) ≤ 2 := by
  have hmem : GLine.rapid 0 6 ∈ gcodeItems aPrec2 2 [(0, [(0, 1)])] := by
    rw [gcodeItems_prec2_eval]
    decide
  exact ⟨hmem, by decide, coords_precision aPrec2 2 _ _ hmem 0 (by decide)⟩

theorem rowRecs_mem_rows (m : HMotion) (rows : List (ℕ × List (ℕ × ℕ))) :
    ∀ (odd : Bool), ∀ r ∈ rowRecs m rows odd,
      ∃ spans, (r.1, spans) ∈ rows ∧ spans ≠ [] := by
  induction rows with
  | nil => intro odd r h; simp [rowRecs] at h
  | cons hd tl ih =>
    obtain ⟨y, spans⟩ := hd
    intro odd r h
    by_cases he : spans.isEmpty
    · rw [rowRecs, if_pos he] at h
      obtain ⟨sp, hmem, hne⟩ := ih odd r h
      exact ⟨sp, List.mem_cons_of_mem _ hmem, hne⟩
    · rw [rowRecs, if_neg he] at h
      rcases List.mem_cons.mp h with rfl | h
      · exact ⟨spans, List.mem_cons_self _ _, by simpa [List.isEmpty_iff] using he⟩
      · obtain ⟨sp, hmem, hne⟩ := ih (!odd) r h
        exact ⟨sp, List.mem_cons_of_mem _ hmem, hne⟩

/-- C8: per-row Y binding.  Every rapid move inside the block
`recItems` emits for the row with machine row index `y` carries as its
scaled Y exactly `rustRound ((y·(1/lines_per_mm) + (1/lines_per_mm)/2)
· 10^dp)` — the beam centred in that row's band, rounded to the
resolved precision by round-to-nearest on the value scaled by
`10^precision`; every emitted row record's index is the machine index
of a non-empty input row; and the stream is exactly the preamble, the
concatenation of these per-row blocks in order, and the trailing `M5`
— so each rapid carries its own row's Y, not some other row's. -/
theorem row_y_coord (a : Args) (dp : ℕ) (rows : List (ℕ × List (ℕ × ℕ))) :
    (∀ (y : ℕ) (rtl : Bool) (spans : List (ℕ × ℕ)) (kx ky : ℤ),
        GLine.rapid kx ky ∈ recItems a dp y rtl spans →
          ky = rustRound (((y : ℚ) * (1 / (a.lines_per_mm : ℚ)) +
            (1 / (a.lines_per_mm : ℚ)) / 2) * 10 ^ dp))
    ∧ (∀ r ∈ rowRecs a.motion rows false, ∃ spans, (r.1, spans) ∈ rows ∧ spans ≠ [])
    ∧ gcodeItems a dp rows
        = GLine.g90 :: GLine.origin a.feed :: GLine.m3 ::
            ((rowRecs a.motion rows false).flatMap
              (fun r => recItems a dp r.1 r.2.1 r.2.2) ++ [GLine.m5]) := by
  refine ⟨?_, rowRecs_mem_rows a.motion rows false, rfl⟩
  intro y rtl spans kx ky h
  simp only [recItems, List.mem_cons, reduceCtorEq, false_or] at h
  obtain ⟨se, -, hin⟩ := List.mem_flatMap.mp h
  by_cases hrtl : rtl = true
  · rw [if_pos hrtl] at hin
    rcases List.mem_cons.mp hin with heq | hin
    · exact (GLine.rapid.injEq _ _ _ _).mp heq.symm |>.2 |>.symm
    · rcases List.mem_cons.mp hin with heq | hin
      · exact absurd heq (by simp)
      · simp at hin
  · rw [if_neg hrtl] at hin
    rcases List.mem_cons.mp hin with heq | hin
    · exact (GLine.rapid.injEq _ _ _ _).mp heq.symm |>.2 |>.symm
    · rcases List.mem_cons.mp hin with heq | hin
      · exact absurd heq (by simp)
      · simp at hin

theorem recItems_prec2_eval :
    recItems aPrec2 2 0 false [(0, 1)]
      = [GLine.comment 0 false, GLine.rapid 0 6, GLine.engrave 100 1000] := by
  simp only [recItems, aPrec2, List.flatMap_cons, List.flatMap_nil, List.append_nil,
    List.cons_append, List.nil_append]
  norm_num [rustRound, mmPerIn, Int.floor_eq_iff]

/-- Closed instance of `row_y_coord` at a concrete rapid move of row 0:
the rapid emitted inside row 0's own block carries row 0's rounded
band-centre Y. -/
theorem row_y_coord_witness :
    GLine.rapid 0 6 ∈ recItems aPrec2 2 0 false [(0, 1)]
    ∧ (6 : ℤ) = rustRound ((((0 : ℕ) : ℚ) * (1 / (aPrec2.lines_per_mm : ℚ)) +
        (1 / (aPrec2.lines_per_mm : ℚ)) / 2) * 10 ^ 2) := by
  have hmem : GLine.rapid 0 6 ∈ recItems aPrec2 2 0 false [(0, 1)] := by
    rw [recItems_prec2_eval]
    decide
  exact ⟨hmem, (row_y_coord aPrec2 2 [(0, [(0, 1)])]).1 0 false [(0, 1)] 0 6 hmem⟩

theorem spansOf_threshold_zero (f : ℕ → ℕ) (w : ℕ) : spansOf 0 f w = [] := by
  have : ∀ n x, spanLoopF 0 f n x none = [] := by
    intro n
    induction n with
    | zero => intro x; rfl
    | succ n ih =>
      intro x
      rw [spanLoopF, if_neg (Nat.not_lt_zero _)]
      exact ih (x + 1)
  exact this w 0

theorem rowRecs_all_empty (m : HMotion) (rows : List (ℕ × List (ℕ × ℕ)))
    (h : ∀ r ∈ rows, r.2 = ([] : List (ℕ × ℕ))) :
    ∀ odd, rowRecs m rows odd = [] := by
  induction rows with
  | nil => intro odd; rfl
  | cons hd tl ih =>
    obtain ⟨y, spans⟩ := hd
    intro odd
    have hsp : spans = [] := h (y, spans) (List.mem_cons_self _ _)
    subst hsp
    simp only [rowRecs, List.isEmpty_nil, if_true]
    exact ih (fun r hr => h r (List.mem_cons_of_mem _ hr)) odd

/-- C10: with threshold 0 no luminance sample is ever strictly below
the threshold, so every row's span list is empty and the emitted
stream is exactly the preamble (`G90`, the origin rapid at the feed
rate, `M3 S0`) followed by the trailing `M5` — no row comments, no
engraving moves. -/
theorem threshold_zero (a : Args) (dp : ℕ) (img : Image) (n : ℕ) :
    (∀ (f : ℕ → ℕ) (w : ℕ), spansOf 0 f w = [])
    ∧ (∀ r ∈ buildRows 0 img n, r.2 = ([] : List (ℕ × ℕ)))
    ∧ gcodeLines a dp (buildRows 0 img n)
        = ["G90", "G0 X0 Y0 F" ++ natStr a.feed, "M3 S0", "M5"] := by
  have hempty : ∀ r ∈ buildRows 0 img n, r.2 = ([] : List (ℕ × ℕ)) := by
    intro r hr
    rw [buildRows, List.mem_reverse] at hr
    obtain ⟨y, -, rfl⟩ := List.mem_map.mp hr
    exact spansOf_threshold_zero _ _
  refine ⟨spansOf_threshold_zero, hempty, ?_⟩
  rw [gcodeLines, gcodeItems, rowRecs_all_empty a.motion _ hempty false]
  rfl

/-- C4: the configuration checks.  A configuration error is raised
exactly when `dpi ≤ 0`, `steps_per_mm = 0`, `lines_per_mm = 0`, or
`steps_per_mm` is not an exact multiple of `lines_per_mm`; and whenever
one is raised, `main` returns that error for every possible state of
the image file alike (including an unreadable one) — the checks run
before any file I/O and before any output is produced. -/
theorem config_checks (a : Args) :
    ((a.dpi ≤ 0 ∨ a.steps_per_mm = 0 ∨ a.lines_per_mm = 0 ∨
        a.steps_per_mm % a.lines_per_mm ≠ 0) ↔ ∃ e, configCheck a = some e)
    ∧ (∀ e, configCheck a = some e →
        ∀ (resize : Image → ℕ → ℕ → Image) (input : Option Image),
          runMain resize a input = Except.error e) := by
  constructor
  · by_cases h1 : a.dpi ≤ 0
    · simp [configCheck, h1]
    · by_cases h2 : a.steps_per_mm = 0
      · simp [configCheck, h1, h2]
      · by_cases h3 : a.lines_per_mm = 0
        · simp [configCheck, h1, h2, h3]
        · by_cases h4 : a.steps_per_mm % a.lines_per_mm = 0
          · simp [configCheck, h1, h2, h3, h4]
          · simp [configCheck, h1, h2, h3, h4]
  · intro e he resize input
    rw [runMain.eq_def, he]

/-- Closed instance of `config_checks` on a rejected configuration. -/
theorem config_checks_witness :
    configCheck aZeroSteps = some "steps/mm must not be zero"
    ∧ runMain (fun i _ _ => i) aZeroSteps none
        = Except.error "steps/mm must not be zero" := by
  have hc : configCheck aZeroSteps = some "steps/mm must not be zero" := by
    rw [configCheck, if_neg (by norm_num [aZeroSteps])]
    norm_num [aZeroSteps]
  exact ⟨hc, (config_checks aZeroSteps).2 _ hc (fun i _ _ => i) none⟩

/-- C7: the Physical Scaler.  For valid configurations, the per-axis
step count is the ceiling of (physical dimension in mm) × steps/mm —
characterised by `q ≤ ws < q + 1`; the line count is the floor of
vertical steps / steps-per-line — characterised by
`spl·lc ≤ hs < spl·(lc+1)` (a partial final line is dropped); and the
output width is the analogous floor when horizontal quantization is on,
or the original bitmap width otherwise. -/
theorem scaler (a : Args) (W H : ℕ) (hdpi : 0 < a.dpi) (hs : a.steps_per_mm ≠ 0)
    (hl : a.lines_per_mm ≠ 0) (hdiv : a.steps_per_mm % a.lines_per_mm = 0) :
    (∀ px : ℕ, ((px : ℚ) / (a.dpi / mmPerIn)) * (a.steps_per_mm : ℚ) ≤ (stepsOfQ a px : ℚ)
      ∧ (stepsOfQ a px : ℚ) < ((px : ℚ) / (a.dpi / mmPerIn)) * (a.steps_per_mm : ℚ) + 1)
    ∧ (stepsPerLine a * lineCountOf a H ≤ stepsOfQ a H
        ∧ stepsOfQ a H < stepsPerLine a * (lineCountOf a H + 1))
    ∧ (a.quantize_horizontal = true →
        stepsPerLine a * widthOf a W ≤ stepsOfQ a W
          ∧ stepsOfQ a W < stepsPerLine a * (widthOf a W + 1))
    ∧ (a.quantize_horizontal = false → widthOf a W = W) := by
  have hdpmm : 0 < a.dpi / mmPerIn := div_pos hdpi (by norm_num [mmPerIn])
  have hceil : ∀ px : ℕ,
      ((px : ℚ) / (a.dpi / mmPerIn)) * (a.steps_per_mm : ℚ) ≤ (stepsOfQ a px : ℚ)
      ∧ (stepsOfQ a px : ℚ) < ((px : ℚ) / (a.dpi / mmPerIn)) * (a.steps_per_mm : ℚ) + 1 := by
    intro px
    have hq0 : 0 ≤ ((px : ℚ) / (a.dpi / mmPerIn)) * (a.steps_per_mm : ℚ) := by positivity
    have h1 : (0 : ℤ) ≤ ⌈((px : ℚ) / (a.dpi / mmPerIn)) * (a.steps_per_mm : ℚ)⌉ :=
      Int.ceil_nonneg hq0
    have hcast : ((stepsOfQ a px : ℕ) : ℚ)
        = ((⌈((px : ℚ) / (a.dpi / mmPerIn)) * (a.steps_per_mm : ℚ)⌉ : ℤ) : ℚ) := by
      rw [stepsOfQ]
      exact_mod_cast congrArg (fun z : ℤ => (z : ℚ)) (Int.toNat_of_nonneg h1)
    constructor
    · rw [hcast]
      exact Int.le_ceil _
    · rw [hcast]
      exact Int.ceil_lt_add_one _
  have hspl : 0 < stepsPerLine a := by
    rw [stepsPerLine]
    have hdvd : a.lines_per_mm ∣ a.steps_per_mm := Nat.dvd_of_mod_eq_zero hdiv
    have hle : a.lines_per_mm ≤ a.steps_per_mm := Nat.le_of_dvd (Nat.pos_of_ne_zero hs) hdvd
    exact Nat.div_pos hle (Nat.pos_of_ne_zero hl)
  have hdivchar : ∀ x : ℕ, stepsPerLine a * (x / stepsPerLine a) ≤ x
      ∧ x < stepsPerLine a * (x / stepsPerLine a + 1) := by
    intro x
    constructor
    · calc stepsPerLine a * (x / stepsPerLine a)
          = (x / stepsPerLine a) * stepsPerLine a := Nat.mul_comm _ _
        _ ≤ x := Nat.div_mul_le_self x _
    · calc x = stepsPerLine a * (x / stepsPerLine a) + x % stepsPerLine a :=
          (Nat.div_add_mod x _).symm
        _ < stepsPerLine a * (x / stepsPerLine a) + stepsPerLine a :=
          Nat.add_lt_add_left (Nat.mod_lt x hspl) _
        _ = stepsPerLine a * (x / stepsPerLine a + 1) := (Nat.mul_succ _ _).symm
  refine ⟨hceil, ?_, ?_, ?_⟩
  · rw [lineCountOf]
    exact hdivchar (stepsOfQ a H)
  · intro hq
    rw [widthOf, if_pos hq]
    exact hdivchar (stepsOfQ a W)
  · intro hq
    rw [widthOf, if_neg (by simp [hq])]

/-- Closed instance of `scaler` on the default configuration and a
100-pixel-square image. -/
theorem scaler_witness :
    (0 : ℚ) < aDefault.dpi
    ∧ ((100 : ℚ) / (aDefault.dpi / mmPerIn)) * (aDefault.steps_per_mm : ℚ)
        ≤ (stepsOfQ aDefault 100 : ℚ)
    ∧ stepsPerLine aDefault * lineCountOf aDefault 100 ≤ stepsOfQ aDefault 100
    ∧ widthOf aDefault 100 = 100 := by
  have h := scaler aDefault 100 100 (by norm_num [aDefault]) (by norm_num [aDefault])
    (by norm_num [aDefault]) (by norm_num [aDefault])
  refine ⟨by norm_num [aDefault], ?_, h.2.1.1, h.2.2.2 rfl⟩
  have := (h.1 100).1
  exact_mod_cast this

theorem rhez_ge_floor (q : ℚ) : ⌊q⌋ ≤ roundHalfEvenZ q := by
  simp only [roundHalfEvenZ]
  split_ifs <;> omega

theorem rhez_le_half (q : ℚ) : (roundHalfEvenZ q : ℚ) ≤ q + 1 / 2 := by
  have hfl := Int.floor_le q
  have hfl2 := Int.lt_floor_add_one q
  simp only [roundHalfEvenZ]
  split_ifs with h1 h2 h3
  · linarith
  · push_cast
    linarith
  · linarith
  · push_cast
    linarith

theorem toF64_pos (q : ℚ) (hq : 0 < q) : 0 < toF64 q := by
  rw [toF64, if_neg (not_le.mpr hq)]
  have h2e : (0 : ℚ) < (2 : ℚ) ^ (Int.log 2 q - 52) := zpow_pos (by norm_num) _
  have hlow : (2 : ℚ) ^ ((52 : ℤ)) ≤ q / (2 : ℚ) ^ (Int.log 2 q - 52) := by
    rw [le_div_iff₀ h2e, ← zpow_add₀ (by norm_num : (2 : ℚ) ≠ 0)]
    have : (52 : ℤ) + (Int.log 2 q - 52) = Int.log 2 q := by ring
    rw [this]
    exact Int.zpow_log_le_self (by norm_num) hq
  have hfl : (1 : ℤ) ≤ ⌊q / (2 : ℚ) ^ (Int.log 2 q - 52)⌋ := by
    rw [Int.le_floor]
    exact le_trans (by norm_num) hlow
  have hm : (1 : ℤ) ≤ roundHalfEvenZ (q / (2 : ℚ) ^ (Int.log 2 q - 52)) :=
    le_trans hfl (rhez_ge_floor _)
  have : (0 : ℚ) < (roundHalfEvenZ (q / (2 : ℚ) ^ (Int.log 2 q - 52)) : ℚ) := by
    exact_mod_cast lt_of_lt_of_le Int.zero_lt_one hm
  exact mul_pos this h2e

theorem toF64_lt_one (q : ℚ) (hq0 : 0 < q) (hq : q ≤ 1 / 2) : toF64 q < 1 := by
  have hlog : Int.log 2 q ≤ -1 := by
    have h3 : q < (2 : ℚ) ^ (0 : ℤ) := by
      rw [zpow_zero]
      linarith
    have h4 := (Int.lt_zpow_iff_log_lt (by norm_num) hq0).mp h3
    exact (by omega : Int.log 2 q < 0 → Int.log 2 q ≤ -1) h4
  rcases eq_or_lt_of_le hlog with heq | hlt
  · -- Int.log 2 q = -1 forces q = 1/2; compute toF64 (1/2) = 1/2.
    have hq2 : q = 1 / 2 := by
      have hge : (2 : ℚ) ^ (-1 : ℤ) ≤ q := by
        rw [← heq]
        exact Int.zpow_log_le_self (by norm_num) hq0
      have : (2 : ℚ) ^ (-1 : ℤ) = 1 / 2 := by norm_num
      linarith [this ▸ hge]
    subst hq2
    have hlg : Int.log 2 ((1 : ℚ) / 2) = -1 := by
      apply int_log_eval (by norm_num) (by norm_num)
      · norm_num
      · norm_num
    have hx : ((1 : ℚ) / 2) / (2 : ℚ) ^ ((-1 : ℤ) - 52) = 4503599627370496 := by
      rw [show ((-1 : ℤ) - 52) = -53 by ring]
      norm_num
    have hm : roundHalfEvenZ (((1 : ℚ) / 2) / (2 : ℚ) ^ ((-1 : ℤ) - 52)) = 4503599627370496 := by
      rw [hx]
      exact rhez_eval_lo _ _ (by norm_num) (by norm_num)
    have := toF64_eval ((1 : ℚ) / 2) (-1) 4503599627370496 (by norm_num) hlg hm
    rw [this, show ((-1 : ℤ) - 52) = -53 by ring]
    norm_num
  · -- Int.log 2 q ≤ -2.
    have hlog2 : Int.log 2 q ≤ -2 := by omega
    rw [toF64, if_neg (not_le.mpr hq0)]
    have h2e : (0 : ℚ) < (2 : ℚ) ^ (Int.log 2 q - 52) := zpow_pos (by norm_num) _
    have hub : q / (2 : ℚ) ^ (Int.log 2 q - 52) < (2 : ℚ) ^ (53 : ℤ) := by
      rw [div_lt_iff₀ h2e, ← zpow_add₀ (by norm_num : (2 : ℚ) ≠ 0)]
      have : (53 : ℤ) + (Int.log 2 q - 52) = Int.log 2 q + 1 := by ring
      rw [this]
      exact Int.lt_zpow_succ_log_self (by norm_num) q
    have hm_le : roundHalfEvenZ (q / (2 : ℚ) ^ (Int.log 2 q - 52)) ≤ 2 ^ 53 := by
      have h1 := rhez_le_half (q / (2 : ℚ) ^ (Int.log 2 q - 52))
      have h2 : (roundHalfEvenZ (q / (2 : ℚ) ^ (Int.log 2 q - 52)) : ℚ)
          < (2 : ℚ) ^ (53 : ℤ) + 1 := by linarith
      have h3 : ((2 : ℚ) ^ (53 : ℤ)) = ((2 ^ 53 : ℤ) : ℚ) := by norm_num
      rw [h3] at h2
      exact_mod_cast Int.lt_add_one_iff.mp (by exact_mod_cast h2)
    calc (roundHalfEvenZ (q / (2 : ℚ) ^ (Int.log 2 q - 52)) : ℚ) * (2 : ℚ) ^ (Int.log 2 q - 52)
        ≤ ((2 ^ 53 : ℤ) : ℚ) * (2 : ℚ) ^ (Int.log 2 q - 52) := by
          apply mul_le_mul_of_nonneg_right _ (le_of_lt h2e)
          exact_mod_cast hm_le
      _ = (2 : ℚ) ^ ((53 : ℤ) + (Int.log 2 q - 52)) := by
          rw [zpow_add₀ (by norm_num : (2 : ℚ) ≠ 0)]
          norm_num
      _ ≤ (2 : ℚ) ^ (-1 : ℤ) := by
          apply zpow_le_zpow_right₀ (by norm_num)
          omega
      _ < 1 := by norm_num

theorem natStr_length_pos (n : ℕ) : 1 ≤ (natStr n).length := by
  have h := digitsChars_ne_nil n
  have : 0 < (digitsChars n).length := List.length_pos.mpr h
  simpa [natStr, String.length] using this

theorem rustFmt_len_ge3 (v : ℚ) (h0 : 0 < v) (h1 : v < 1) :
    3 ≤ (rustFmtF64 v).length := by
  have hk : Int.log 10 v < 0 := by
    apply (Int.lt_zpow_iff_log_lt (by norm_num) h0).mp
    simpa using h1
  simp only [rustFmtF64]
  rw [if_neg (not_le.mpr h0), if_pos hk]
  rw [String.length_append, String.length_append]
  have hd := natStr_length_pos ((sigDigits v (shortestSig v)).toNat)
  have h02 : ("0." : String).length = 2 := rfl
  omega

/-- C9 (amended): for every `steps_per_mm ≥ 2` accepted by validation,
the display of `1/steps_per_mm` is at least 3 characters long
(`0.…`), so the `len - 2` subtraction never underflows and the
auto-derived precision is a well-defined nonnegative digit count.  (At
`steps_per_mm = 1` the display is `"1"`, length 1, and the `usize`
subtraction underflows — see the counterexample.) -/
theorem auto_precision_total (s : ℕ) (hs : 2 ≤ s) :
    2 ≤ autoPrecisionLen s ∧ autoPrecision s = some (autoPrecisionLen s - 2) := by
  have hspos : (0 : ℚ) < (s : ℚ) := by
    exact_mod_cast (show 0 < s by omega)
  have hpos : (0 : ℚ) < 1 / (s : ℚ) := by positivity
  have hhalf : (1 : ℚ) / (s : ℚ) ≤ 1 / 2 := by
    rw [div_le_div_iff₀ hspos (by norm_num)]
    have : (2 : ℚ) ≤ (s : ℚ) := by exact_mod_cast hs
    linarith
  have hv0 := toF64_pos _ hpos
  have hv1 := toF64_lt_one _ hpos hhalf
  have hlen := rustFmt_len_ge3 _ hv0 hv1
  have h2 : 2 ≤ autoPrecisionLen s := by
    rw [autoPrecisionLen]
    omega
  exact ⟨h2, by rw [autoPrecision, if_pos h2]⟩

theorem toF64_one : toF64 (1 : ℚ) = 1 := by
  have hlg : Int.log 2 (1 : ℚ) = 0 := Int.log_one_right 2
  have hm : roundHalfEvenZ ((1 : ℚ) / (2 : ℚ) ^ ((0 : ℤ) - 52)) = 4503599627370496 := by
    have hx : (1 : ℚ) / (2 : ℚ) ^ ((0 : ℤ) - 52) = 4503599627370496 := by
      rw [show ((0 : ℤ) - 52) = -52 by ring]
      norm_num
    rw [hx]
    exact rhez_eval_lo _ _ (by norm_num) (by norm_num)
  have h := toF64_eval 1 0 4503599627370496 (by norm_num) hlg hm
  rw [h, show ((0 : ℤ) - 52) = -52 by ring]
  norm_num

theorem rustFmtF64_one : rustFmtF64 (1 : ℚ) = "1" := by
  have hk : Int.log 10 (1 : ℚ) = 0 := Int.log_one_right 10
  have hsig : sigDigits (1 : ℚ) 1 = 1 := by
    rw [sigDigits, hk, show ((0 : ℤ) - (1 : ℕ) + 1) = 0 by norm_num]
    rw [zpow_zero, div_one]
    exact rhez_eval_lo _ _ (by norm_num) (by norm_num)
  have hrt : roundTrips (1 : ℚ) 1 = true := by
    rw [roundTrips, decide_eq_true_eq, hsig, hk]
    rw [show ((1 : ℤ) : ℚ) * (10 : ℚ) ^ ((0 : ℤ) - (1 : ℕ) + 1) = 1 by push_cast; norm_num]
    exact toF64_one
  have hss : ∀ (fuel n : ℕ), searchSig (1 : ℚ) (fuel + 1) n
      = if roundTrips 1 n then n else searchSig 1 fuel (n + 1) := fun _ _ => rfl
  have hshort : shortestSig (1 : ℚ) = 1 := by
    rw [shortestSig, show (16 : ℕ) = 15 + 1 from rfl, hss, hrt]
    simp
  simp only [rustFmtF64, hk, hshort, hsig]
  rw [if_neg (by norm_num), if_neg (by norm_num), if_pos (by norm_num)]
  decide

theorem autoPrecisionLen_one : autoPrecisionLen 1 = 1 := by
  rw [autoPrecisionLen, show (1 : ℚ) / ((1 : ℕ) : ℚ) = 1 by norm_num, toF64_one,
    rustFmtF64_one]
  rfl

/-- C9 as stated is false at `steps_per_mm = 1`: the configuration
passes validation (with `lines_per_mm = 1`), but `1/1` displays as
`"1"`, of length 1, so `len - 2` underflows (a `usize` underflow —
panic in debug builds) and the auto-derivation is not total. -/
theorem auto_precision_claim_cex :
    configCheck aStep1 = none
    ∧ autoPrecisionLen 1 = 1
    ∧ ¬2 ≤ autoPrecisionLen 1
    ∧ autoPrecision 1 = none := by
  refine ⟨?_, autoPrecisionLen_one, ?_, ?_⟩
  · rw [configCheck, if_neg (by norm_num [aStep1]), if_neg (by norm_num [aStep1]),
      if_neg (by norm_num [aStep1]), if_neg (by norm_num [aStep1])]
  · rw [autoPrecisionLen_one]
    norm_num
  · rw [autoPrecision, autoPrecisionLen_one]
    norm_num

theorem toF64_inv160 : toF64 ((1 : ℚ) / 160) = 7205759403792794 * (2 : ℚ) ^ (-60 : ℤ) := by
  have hlg : Int.log 2 ((1 : ℚ) / 160) = -8 :=
    int_log_eval (by norm_num) (by norm_num) (by norm_num) (by norm_num)
  have hm : roundHalfEvenZ (((1 : ℚ) / 160) / (2 : ℚ) ^ ((-8 : ℤ) - 52)) = 7205759403792794 := by
    have hx : ((1 : ℚ) / 160) / (2 : ℚ) ^ ((-8 : ℤ) - 52) = 36028797018963968 / 5 := by
      rw [show ((-8 : ℤ) - 52) = -60 by ring]
      norm_num
    rw [hx]
    have := rhez_eval_hi (36028797018963968 / 5) 7205759403792793 (by norm_num) (by norm_num)
      (by norm_num)
    simpa using this
  have h := toF64_eval ((1 : ℚ) / 160) (-8) 7205759403792794 (by norm_num) hlg hm
  rw [h, show ((-8 : ℤ) - 52) = -60 by ring]
  norm_num

theorem rustFmtF64_inv160 :
    rustFmtF64 (7205759403792794 * (2 : ℚ) ^ (-60 : ℤ)) = "0.00625" := by
  have hk : Int.log 10 (7205759403792794 * (2 : ℚ) ^ (-60 : ℤ)) = -3 :=
    int_log_eval (by norm_num) (by norm_num) (by norm_num) (by norm_num)
  have hsig1 : sigDigits (7205759403792794 * (2 : ℚ) ^ (-60 : ℤ)) 1 = 6 := by
    rw [sigDigits, hk, show ((-3 : ℤ) - (1 : ℕ) + 1) = -3 by norm_num]
    exact rhez_eval_lo _ 6 (by norm_num) (by norm_num)
  have hsig2 : sigDigits (7205759403792794 * (2 : ℚ) ^ (-60 : ℤ)) 2 = 63 := by
    rw [sigDigits, hk, show ((-3 : ℤ) - (2 : ℕ) + 1) = -4 by norm_num]
    have := rhez_eval_hi ((7205759403792794 * (2 : ℚ) ^ (-60 : ℤ)) / (10 : ℚ) ^ (-4 : ℤ)) 62
      (by norm_num) (by norm_num) (by norm_num)
    simpa using this
  have hsig3 : sigDigits (7205759403792794 * (2 : ℚ) ^ (-60 : ℤ)) 3 = 625 := by
    rw [sigDigits, hk, show ((-3 : ℤ) - (3 : ℕ) + 1) = -5 by norm_num]
    exact rhez_eval_lo _ 625 (by norm_num) (by norm_num)
  have hrt1 : roundTrips (7205759403792794 * (2 : ℚ) ^ (-60 : ℤ)) 1 = false := by
    rw [roundTrips]
    apply decide_eq_false
    intro hEq
    rw [hsig1, hk,
      show ((6 : ℤ) : ℚ) * (10 : ℚ) ^ ((-3 : ℤ) - (1 : ℕ) + 1) = 3 / 500 by push_cast; norm_num]
      at hEq
    have hval2 : toF64 ((3 : ℚ) / 500) = 6917529027641082 * (2 : ℚ) ^ (-60 : ℤ) := by
      have hlg2 : Int.log 2 ((3 : ℚ) / 500) = -8 :=
        int_log_eval (by norm_num) (by norm_num) (by norm_num) (by norm_num)
      have hm2 : roundHalfEvenZ (((3 : ℚ) / 500) / (2 : ℚ) ^ ((-8 : ℤ) - 52))
          = 6917529027641082 := by
        have hx2 : ((3 : ℚ) / 500) / (2 : ℚ) ^ ((-8 : ℤ) - 52) = 3458764513820540928 / 500 := by
          rw [show ((-8 : ℤ) - 52) = -60 by ring]
          norm_num
        rw [hx2]
        have := rhez_eval_hi (3458764513820540928 / 500) 6917529027641081 (by norm_num)
          (by norm_num) (by norm_num)
        simpa using this
      have h := toF64_eval _ (-8) 6917529027641082 (by norm_num) hlg2 hm2
      rw [h, show ((-8 : ℤ) - 52) = -60 by ring]
      norm_num
    rw [hval2] at hEq
    norm_num at hEq
  have hrt2 : roundTrips (7205759403792794 * (2 : ℚ) ^ (-60 : ℤ)) 2 = false := by
    rw [roundTrips]
    apply decide_eq_false
    intro hEq
    rw [hsig2, hk,
      show ((63 : ℤ) : ℚ) * (10 : ℚ) ^ ((-3 : ℤ) - (2 : ℕ) + 1) = 63 / 10000 by
        push_cast; norm_num] at hEq
    have hval2 : toF64 ((63 : ℚ) / 10000) = 7263405479023136 * (2 : ℚ) ^ (-60 : ℤ) := by
      have hlg2 : Int.log 2 ((63 : ℚ) / 10000) = -8 :=
        int_log_eval (by norm_num) (by norm_num) (by norm_num) (by norm_num)
      have hm2 : roundHalfEvenZ (((63 : ℚ) / 10000) / (2 : ℚ) ^ ((-8 : ℤ) - 52))
          = 7263405479023136 := by
        have hx2 : ((63 : ℚ) / 10000) / (2 : ℚ) ^ ((-8 : ℤ) - 52)
            = 72634054790231359488 / 10000 := by
          rw [show ((-8 : ℤ) - 52) = -60 by ring]
          norm_num
        rw [hx2]
        have := rhez_eval_hi (72634054790231359488 / 10000) 7263405479023135 (by norm_num)
          (by norm_num) (by norm_num)
        simpa using this
      have h := toF64_eval _ (-8) 7263405479023136 (by norm_num) hlg2 hm2
      rw [h, show ((-8 : ℤ) - 52) = -60 by ring]
      norm_num
    rw [hval2] at hEq
    norm_num at hEq
  have hrt3 : roundTrips (7205759403792794 * (2 : ℚ) ^ (-60 : ℤ)) 3 = true := by
    rw [roundTrips, decide_eq_true_eq, hsig3, hk,
      show ((625 : ℤ) : ℚ) * (10 : ℚ) ^ ((-3 : ℤ) - (3 : ℕ) + 1) = 1 / 160 by
        push_cast; norm_num]
    exact toF64_inv160
  have hss : ∀ (fuel n : ℕ), searchSig (7205759403792794 * (2 : ℚ) ^ (-60 : ℤ)) (fuel + 1) n
      = if roundTrips (7205759403792794 * (2 : ℚ) ^ (-60 : ℤ)) n then n
        else searchSig (7205759403792794 * (2 : ℚ) ^ (-60 : ℤ)) fuel (n + 1) := fun _ _ => rfl
  have hshort : shortestSig (7205759403792794 * (2 : ℚ) ^ (-60 : ℤ)) = 3 := by
    rw [shortestSig, show (16 : ℕ) = 15 + 1 from rfl, hss, hrt1]
    rw [show (15 : ℕ) = 14 + 1 from rfl, hss, hrt2]
    rw [show (14 : ℕ) = 13 + 1 from rfl, hss, hrt3]
    simp
  simp only [rustFmtF64, hk, hshort, hsig3]
  rw [if_neg (by norm_num), if_pos (by norm_num)]
  decide

theorem autoPrecision_160 : autoPrecisionLen 160 = 7 ∧ autoPrecision 160 = some 5 := by
  have h1 : autoPrecisionLen 160 = 7 := by
    rw [autoPrecisionLen, show (1 : ℚ) / ((160 : ℕ) : ℚ) = 1 / 160 by norm_num, toF64_inv160,
      rustFmtF64_inv160]
    rfl
  refine ⟨h1, ?_⟩
  rw [autoPrecision, h1]
  norm_num

/-- Closed instance of `auto_precision_total` at the default 160
steps/mm, together with the concrete derived precision 5. -/
theorem auto_precision_witness :
    (2 ≤ autoPrecisionLen 160 ∧ autoPrecision 160 = some (autoPrecisionLen 160 - 2))
    ∧ autoPrecision 160 = some 5 :=
  ⟨auto_precision_total 160 (by norm_num), autoPrecision_160.2⟩

/-- Closed instance of `threshold_zero` on a 2×2 image. -/
theorem threshold_zero_witness :
    spansOf 0 (fun x => imgBlack.sample x 0) 2 = []
    ∧ ((0, ([] : List (ℕ × ℕ))) ∈ buildRows 0 imgBlack 2 →
        ((0 : ℕ), ([] : List (ℕ × ℕ))).2 = ([] : List (ℕ × ℕ)))
    ∧ gcodeLines aDefault 5 (buildRows 0 imgBlack 2)
        = ["G90", "G0 X0 Y0 F" ++ natStr aDefault.feed, "M3 S0", "M5"] := by
  have h := threshold_zero aDefault 5 imgBlack 2
  exact ⟨h.1 _ 2, h.2.1 _, h.2.2⟩
